import Mathlib

/-!
# Digital Twin snapshot/restore core: a verification model

The repository ships only documentation for its Digital Twin core (the
manifest data model, the seal/embed pipeline, the decode/restore pipeline,
the secret-quarantine gate and the diff engine); the implementation modules
named in the documentation are not part of the source tree.  Every
definition below is therefore modelled from the specification's wording, as
its doc comment records.  File paths and file contents are modelled as byte
sequences (`List Nat`), so that byte-for-byte properties are plain list
equalities and every definition is executable.
-/

/-- Byte strings: file contents, paths and serialized forms are sequences of
bytes, modelled as lists of naturals. -/
abbrev Bytes := List Nat

/-- Concatenation of the images of a list under a list-valued map.  Used by
the serializer and the secret scanner. -/
def concatMap {α β : Type} (f : α → List β) : List α → List β
  | [] => []
  | a :: as => f a ++ concatMap f as

/-! ## Path safety

Modelled from the spec: every path in `files` is "relative, and does not
escape the restoration root (no absolute paths, no `..` traversal)"; paths
are forward-slash separated. -/
/-- Split a byte string on a separator byte; always returns at least one
(possibly empty) segment. -/
def splitOnByte (sep : Nat) : Bytes → List Bytes
  | [] => [[]]
  | b :: rest =>
    let r := splitOnByte sep rest
    if b = sep then [] :: r
    else
      match r with
      | s :: ss => (b :: s) :: ss
      | [] => [[b]]

/-- Modelled from the spec: an absolute path starts with the separator
(byte 47, a forward slash). -/
def isAbsolute : Bytes → Bool
  | [] => false
  | b :: _ => b == 47

/-- Modelled from the spec: a path attempts traversal when one of its
slash-separated segments is `..` (bytes 46, 46). -/
def hasTraversal (p : Bytes) : Bool :=
  (splitOnByte 47 p).any (fun s => s == [46, 46])

/-- Modelled from the spec: the path-safety invariant — a path is safe when
it is neither absolute nor contains a `..` traversal segment. -/
def isSafePath (p : Bytes) : Bool :=
  !(isAbsolute p) && !(hasTraversal p)

/-! ## Path resolution against a target root

Modelled from the spec: restoration must re-validate that "the resolved
absolute path stays within `target_root`".  A directory tree location is a
stack of path segments; resolving a path against a root processes each
segment, with `..` popping one level and an absolute path ignoring the
root. -/
/-- Apply one path segment to a segment stack: empty and `.` segments are
no-ops, `..` pops a level, any other segment descends. -/
def applySeg (st : List Bytes) (seg : Bytes) : List Bytes :=
  if seg = [] then st
  else if seg = [46] then st
  else if seg = [46, 46] then st.dropLast
  else st ++ [seg]

/-- Modelled from the spec: resolve a manifest path against a target root
(given as a stack of segments); an absolute path resolves from the
filesystem root instead. -/
def resolveUnder (root : List Bytes) (p : Bytes) : List Bytes :=
  if isAbsolute p then (splitOnByte 47 p).foldl applySeg []
  else (splitOnByte 47 p).foldl applySeg root

/-- Boolean test that the first list is a prefix of the second. -/
def leadsWith {α : Type} [DecidableEq α] : List α → List α → Bool
  | [], _ => true
  | _ :: _, [] => false
  | a :: as, b :: bs => a == b && leadsWith as bs

/-- Modelled from the spec: a path stays within the target root when its
resolution against the root still has the root as a prefix. -/
def staysWithin (root : List Bytes) (p : Bytes) : Bool :=
  leadsWith root (resolveUnder root p)

/-! ## Text-safe envelope alphabet

Modelled from the spec: the compressed bytes are encoded "into a text-safe
alphabet (so the envelope survives embedding inside a document format that
may not preserve arbitrary binary bytes verbatim)".  The model uses a
two-letter alphabet (bytes 66 and 65): each byte value is a run of 66s
terminated by a 65, which is reversible and rejects any out-of-alphabet
byte. -/
/-- Encode one byte value into the text-safe alphabet. -/
def textEncodeNat (n : Nat) : Bytes := List.replicate n 66 ++ [65]

/-- Encode a byte string into the text-safe alphabet. -/
def textEncode (bs : Bytes) : Bytes := concatMap textEncodeNat bs

/-- Decode the text-safe alphabet; fails on any byte outside the alphabet
or on an unterminated run. -/
def textDecode : Bytes → Option Bytes
  | [] => some []
  | b :: rest =>
    if b = 65 then (textDecode rest).map (fun l => 0 :: l)
    else if b = 66 then
      match textDecode rest with
      | some (n :: l) => some ((n + 1) :: l)
      | _ => none
    else none

/-! ## Compression layer

Modelled from the spec: the canonical bytes are compressed "with a
general-purpose lossless compressor"; the compression ratio is irrelevant
to the verified properties, so the model idealizes the compressor as a
reversible length-framed transform whose inverse rejects inconsistent
framing (a decompression failure). -/
/-- Idealized lossless compression: length framing of the payload. -/
def compress (bs : Bytes) : Bytes := bs.length :: bs

/-- Inverse of `compress`; fails when the frame is inconsistent. -/
def decompress : Bytes → Option Bytes
  | [] => none
  | n :: rest => if rest.length = n then some rest else none

/-! ## Canonical serialization

Modelled from the spec: `embed` "serializes the Manifest to a canonical
byte form (stable key ordering, explicit length-prefixing or delimiters so
the format is self-describing)".  Each entry is a length-prefixed path
followed by length-prefixed content; the file table is prefixed with its
entry count.  The parser is the exact partial inverse and rejects any
ill-formed or trailing bytes (a parse failure). -/
/-- Length-prefixed encoding of one path/content entry. -/
def encodeEntry (e : Bytes × Bytes) : Bytes :=
  (e.1.length :: e.1) ++ (e.2.length :: e.2)

/-- Canonical byte serialization of a file table: entry count, then
length-prefixed entries in table order. -/
def serializeFiles (fs : List (Bytes × Bytes)) : Bytes :=
  fs.length :: concatMap encodeEntry fs

/-- Parse one length-prefixed byte string, returning it and the remainder. -/
def parseStr : Bytes → Option (Bytes × Bytes)
  | [] => none
  | n :: rest => if n ≤ rest.length then some (rest.take n, rest.drop n) else none

/-- Parse a fixed number of path/content entries, returning them and the
remainder. -/
def parseEntries : Nat → Bytes → Option (List (Bytes × Bytes) × Bytes)
  | 0, bs => some ([], bs)
  | k + 1, bs =>
    (parseStr bs).bind (fun pr =>
      (parseStr pr.2).bind (fun cr =>
        (parseEntries k cr.2).map (fun er => ((pr.1, cr.1) :: er.1, er.2))))

/-- Parse a canonical file-table serialization; rejects trailing bytes. -/
def parseFiles (bs : Bytes) : Option (List (Bytes × Bytes)) :=
  match bs with
  | [] => none
  | cnt :: rest =>
    (parseEntries cnt rest).bind (fun er => if er.2 = [] then some er.1 else none)

/-! ## Manifest model and checksum

Modelled from the spec: a Manifest holds `format_tag`, `files`, `metadata`
and `checksum`, where the checksum is "a cryptographic digest computed over
a canonical byte-serialization of `files` (and only `files`)".  The model
idealizes the cryptographic digest as an injective function of the
serialized bytes (the collision-freeness that tamper evidence assumes of a
real digest). -/
/-- Modelled from the spec: idealized cryptographic digest — injective in
the digested bytes, standing in for SHA-256. -/
def digest (bs : Bytes) : Bytes := bs.length :: bs

/-- Modelled from the spec: the format tag string identifying the manifest
format and version, `vibecode-digital-twin-v1` as bytes. -/
def formatTag : Bytes :=
  [118, 105, 98, 101, 99, 111, 100, 101, 45, 100, 105, 103, 105, 116, 97,
   108, 45, 116, 119, 105, 110, 45, 118, 49]

/-- Modelled from the spec: the sealed, checksummed unit of a snapshot. -/
structure Manifest where
  format_tag : Bytes
  files : List (Bytes × Bytes)
  metadata : List (Bytes × Bytes)
  checksum : Bytes
deriving DecidableEq, Repr

/-- Modelled from the spec: errors fatal to `seal` — an unsafe path, or an
unresolved high-confidence secret candidate without an override. -/
inductive SealError where
  | pathViolation (p : Bytes)
  | unresolvedSecretCandidate
deriving DecidableEq, Repr

/-- The validation stage at which decoding failed. -/
inductive Stage where
  | alphabet
  | decompression
  | parseStage
  | checksumStage
  | formatTagStage
deriving DecidableEq, Repr

/-- Modelled from the spec: a terminal integrity error carrying which stage
of decoding failed. -/
inductive DecodeError where
  | integrity (stage : Stage)
deriving DecidableEq, Repr

/-- Modelled from the spec: `seal(files, metadata) -> Manifest` rejects any
absolute or traversing path with a `PathViolation` (aborting the whole
seal), computes the checksum over the canonical serialization of `files`,
and returns the immutable manifest. -/
def sealSnapshot (files metadata : List (Bytes × Bytes)) : Except SealError Manifest :=
  match (files.map Prod.fst).find? (fun p => ! isSafePath p) with
  | some p => .error (.pathViolation p)
  | none => .ok ⟨formatTag, files, metadata, digest (serializeFiles files)⟩

/-! ## Envelope, embed, decode

Modelled from the spec: the envelope is the self-describing, text-safe
blob carrying the compressed payload, "plus the `format_tag` and checksum
in cleartext alongside the compressed payload".  The checksum covers
`files` only (the spec's documented choice, letting metadata be regenerated
without invalidating integrity), so the compressed payload carries exactly
the checksum-covered files serialization and the metadata travels in
cleartext alongside the tag and checksum. -/
/-- Modelled from the spec: the envelope embedded in an artifact, with the
format tag and checksum in cleartext and the compressed, text-encoded
payload. -/
structure Envelope where
  format_tag : Bytes
  checksum : Bytes
  metadata : List (Bytes × Bytes)
  payload : Bytes
deriving DecidableEq, Repr

/-- Modelled from the spec: `embed(manifest) -> envelope` — serialize the
files canonically, compress, encode into the text-safe alphabet, and carry
the format tag and checksum in cleartext; a pure function of the
manifest. -/
def embed (m : Manifest) : Envelope :=
  ⟨m.format_tag, m.checksum, m.metadata,
    textEncode (compress (serializeFiles m.files))⟩

/-- Modelled from the spec: `decode(envelope) -> Manifest | IntegrityError`
reverses embed: decode the text-safe alphabet, decompress, parse the
canonical form, recompute the checksum over the parsed files and compare
with the cleartext checksum, and check the format tag; any failure is a
terminal `IntegrityError` identifying the stage. -/
def decode (e : Envelope) : Except DecodeError Manifest :=
  match textDecode e.payload with
  | none => .error (.integrity .alphabet)
  | some comp =>
    match decompress comp with
    | none => .error (.integrity .decompression)
    | some ser =>
      match parseFiles ser with
      | none => .error (.integrity .parseStage)
      | some fs =>
        if digest (serializeFiles fs) = e.checksum then
          if e.format_tag = formatTag then
            .ok ⟨e.format_tag, fs, e.metadata, e.checksum⟩
          else .error (.integrity .formatTagStage)
        else .error (.integrity .checksumStage)

/-! ## Restore

Modelled from the spec: `restore` writes every file of a validated
manifest below `target_root`, re-validating each path before the write
(defense in depth: a manifest "constructed directly, bypassing seal" must
not write outside the root) and reporting refused paths instead of writing
them.  Written paths are reported root-relative. -/
/-- Modelled from the spec: the per-file outcome report of a restore —
files written below the root and paths refused by the path re-validation. -/
structure RestoreReport where
  written : List (Bytes × Bytes)
  refused : List Bytes
deriving DecidableEq, Repr

/-- Modelled from the spec: restore materializes each file whose path
passes re-validation and reports each refused path. -/
def restore (m : Manifest) : RestoreReport :=
  { written := m.files.filter (fun pc => isSafePath pc.1),
    refused := (m.files.filter (fun pc => ! isSafePath pc.1)).map Prod.fst }

/-- Modelled from the spec: restoration "must never proceed on a manifest
it cannot fully validate" — restore runs only on a successfully decoded
manifest, and a decode error is terminal. -/
def decodeThenRestore (e : Envelope) : Except DecodeError RestoreReport :=
  match decode e with
  | .error err => .error err
  | .ok m => .ok (restore m)

/-! ## Secret scanner and redaction

Modelled from the spec: the scanner runs "a fixed set of pattern matchers
(structural heuristics per credential family, not language parsing) over
each file's text, each reporting a confidence tier", producing Redaction
Decisions with file path, span and confidence; `redact` resolutions are
applied "by replacing the exact matched span with a fixed-width placeholder
token, leaving all other bytes untouched (no re-indentation, no line
removal)" — the placeholder fills exactly the width of the matched span so
that byte offsets, line numbers and file structure are preserved. -/
/-- Modelled from the spec: the confidence tier a pattern matcher reports. -/
inductive Confidence where
  | high
  | medium
  | low
deriving DecidableEq, Repr

/-- Modelled from the spec: one detected secret candidate — file path, byte
span, detected category and confidence tier. -/
structure Candidate where
  path : Bytes
  start : Nat
  len : Nat
  category : Bytes
  confidence : Confidence
deriving DecidableEq, Repr

/-- Modelled from the spec: the operator-supplied resolution for a
candidate. -/
inductive Resolution where
  | redact
  | ignore
deriving DecidableEq, Repr

/-- Modelled from the spec: a Redaction Decision — a detected candidate
together with its resolution. -/
structure Decision where
  cand : Candidate
  res : Resolution
deriving DecidableEq, Repr

/-- Modelled from the spec: the fixed credential-family pattern matchers,
each a category, a byte pattern and the confidence tier it reports (an
API-key-shaped high-confidence family and a credential-shaped
medium-confidence family). -/
def secretPatterns : List (Bytes × Bytes × Confidence) :=
  [([97, 112, 105, 45, 107, 101, 121], [115, 107, 95, 108, 105, 118, 101, 95], .high),
   ([99, 114, 101, 100, 101, 110, 116, 105, 97, 108],
    [112, 97, 115, 115, 119, 111, 114, 100, 61], .medium)]

/-- Does the pattern occur in the content at the given byte offset? -/
def matchesAt (pat c : Bytes) (i : Nat) : Bool :=
  (c.drop i).take pat.length == pat

/-- Modelled from the spec: scan one file's content, reporting a candidate
for every occurrence of every pattern (pure detection, no action taken). -/
def scanContent (path : Bytes) (c : Bytes) : List Candidate :=
  concatMap
    (fun pc =>
      ((List.range c.length).filter (fun i => matchesAt pc.2.1 c i)).map
        (fun i => ⟨path, i, pc.2.1.length, pc.1, pc.2.2⟩))
    secretPatterns

/-- Modelled from the spec: scan a path→content mapping, concatenating the
per-file candidates. -/
def scanFiles (files : List (Bytes × Bytes)) : List Candidate :=
  concatMap (fun pc => scanContent pc.1 pc.2) files

/-- Modelled from the spec: replace exactly the matched span with the
fixed-width placeholder token (mask bytes 42 filling the span's width),
leaving all other bytes untouched. -/
def redactSpan (c : Bytes) (s l : Nat) : Bytes :=
  c.take s ++ List.replicate l 42 ++ c.drop (s + l)

/-- Apply one resolution to one file's content: `redact` masks the
candidate's span, `ignore` keeps the original value. -/
def applyRes (c : Bytes) (d : Decision) : Bytes :=
  match d.res with
  | .ignore => c
  | .redact => redactSpan c d.cand.start d.cand.len

/-- Apply one decision across the mapping (only the candidate's file is
touched). -/
def applyDecision (files : List (Bytes × Bytes)) (d : Decision) :
    List (Bytes × Bytes) :=
  files.map (fun pc => if pc.1 = d.cand.path then (pc.1, applyRes pc.2 d) else pc)

/-- Modelled from the spec: redaction decisions are applied to file content
before the manifest is sealed. -/
def applyDecisions (files : List (Bytes × Bytes)) (ds : List Decision) :
    List (Bytes × Bytes) :=
  ds.foldl applyDecision files

/-- Is this candidate resolved by one of the supplied decisions? -/
def isResolved (ds : List Decision) (c : Candidate) : Bool :=
  ds.any (fun d => d.cand == c)

/-- Modelled from the spec: the high-confidence candidates of a scan left
without a redact/ignore resolution. -/
def unresolvedHigh (files : List (Bytes × Bytes)) (ds : List Decision) :
    List Candidate :=
  (scanFiles files).filter (fun c => c.confidence == .high && ! isResolved ds c)

/-- Modelled from the spec: the Encoder "must refuse to seal a manifest
containing unresolved high-confidence candidates unless explicitly
overridden (fail-closed default, override-able)"; redactions are applied
before sealing. -/
def sealWithPolicy (files metadata : List (Bytes × Bytes)) (ds : List Decision)
    (override : Bool) : Except SealError Manifest :=
  if !override && !(unresolvedHigh files ds).isEmpty then
    .error .unresolvedSecretCandidate
  else sealSnapshot (applyDecisions files ds) metadata

/-! ## Diff engine

Modelled from the spec: `diff(old_manifest, new_manifest)` unions the path
sets of both manifests in lexicographic order and classifies each path as
`added`, `removed`, `modified` (with a line-based unified diff) or
`unchanged`. -/
/-- One line of a unified diff hunk. -/
inductive DiffLine where
  | context (l : Bytes)
  | removedLine (l : Bytes)
  | addedLine (l : Bytes)
deriving DecidableEq, Repr

/-- Modelled from the spec: the change classification of one path. -/
inductive DiffStatus where
  | added
  | removed
  | modified (hunk : List DiffLine)
  | unchanged
deriving DecidableEq, Repr

/-- Modelled from the spec: a Diff Entry — one path present in either
manifest together with its status. -/
structure DiffEntry where
  path : Bytes
  status : DiffStatus
deriving DecidableEq, Repr

/-- Look a path up in a file table. -/
def lookupFile (files : List (Bytes × Bytes)) (p : Bytes) : Option Bytes :=
  (files.find? (fun pc => pc.1 == p)).map Prod.snd

/-- Lexicographic order on byte strings. -/
def bytesLe : Bytes → Bytes → Bool
  | [], _ => true
  | _ :: _, [] => false
  | a :: as, b :: bs => if a < b then true else if b < a then false else bytesLe as bs

/-- Insert a path into a lexicographically sorted list. -/
def insertPath (p : Bytes) : List Bytes → List Bytes
  | [] => [p]
  | q :: qs => if bytesLe p q then p :: q :: qs else q :: insertPath p qs

/-- Sort paths lexicographically (insertion sort, deterministic). -/
def sortPaths (l : List Bytes) : List Bytes := l.foldr insertPath []

/-- Modelled from the spec: the union of the two path sets, deduplicated
and in lexicographic order for deterministic output. -/
def unionPaths (o n : List Bytes) : List Bytes := sortPaths ((o ++ n).dedup)

/-- Split content into lines at byte 10. -/
def linesOf (c : Bytes) : List Bytes := splitOnByte 10 c

/-- Length of the longest common prefix of two line lists. -/
def commonPrefixLen : List Bytes → List Bytes → Nat
  | a :: as, b :: bs => if a == b then commonPrefixLen as bs + 1 else 0
  | _, _ => 0

/-- Modelled from the spec: a line-based unified diff — shared leading and
trailing lines become context, the differing middle becomes removals from
the old content followed by additions from the new. -/
def unifiedDiff (a b : Bytes) : List DiffLine :=
  let la := linesOf a
  let lb := linesOf b
  let p := commonPrefixLen la lb
  let ra := la.drop p
  let rb := lb.drop p
  let s := commonPrefixLen ra.reverse rb.reverse
  ((la.take p).map .context) ++
    ((ra.take (ra.length - s)).map .removedLine) ++
    ((rb.take (rb.length - s)).map .addedLine) ++
    ((ra.drop (ra.length - s)).map .context)

/-- Classify one path of the union against the two manifests. -/
def classifyPath (o n : Manifest) (p : Bytes) : DiffEntry :=
  match lookupFile o.files p, lookupFile n.files p with
  | none, none => ⟨p, .unchanged⟩
  | none, some _ => ⟨p, .added⟩
  | some _, none => ⟨p, .removed⟩
  | some a, some b => if a = b then ⟨p, .unchanged⟩ else ⟨p, .modified (unifiedDiff a b)⟩

/-- Modelled from the spec: `diff(old_manifest, new_manifest)` — classify
every path of the lexicographically ordered union of the two path sets. -/
def diffManifests (o n : Manifest) : List DiffEntry :=
  (unionPaths (o.files.map Prod.fst) (n.files.map Prod.fst)).map (classifyPath o n)

theorem mem_concatMap {α β : Type} (f : α → List β) (l : List α) (b : β) :
    b ∈ concatMap f l ↔ ∃ a ∈ l, b ∈ f a := by
  induction l with
  | nil => simp [concatMap]
  | cons x xs ih => simp [concatMap, ih]

theorem leadsWith_append {α : Type} [DecidableEq α] (l t : List α) :
    leadsWith l (l ++ t) = true := by
  induction l with
  | nil => rfl
  | cons a as ih => simp [leadsWith, ih]

theorem leadsWith_extend {α : Type} [DecidableEq α] (l : List α) :
    ∀ (st t : List α), leadsWith l st = true → leadsWith l (st ++ t) = true := by
  induction l with
  | nil => intro st t _; rfl
  | cons a as ih =>
    intro st t h
    cases st with
    | nil => simp [leadsWith] at h
    | cons b bs =>
      simp only [leadsWith, Bool.and_eq_true, beq_iff_eq] at h
      simp only [List.cons_append, leadsWith, Bool.and_eq_true, beq_iff_eq]
      exact ⟨h.1, ih bs t h.2⟩

/-- A safe relative path only ever descends: applying its segments keeps
the root a prefix of the stack. -/
theorem foldl_applySeg_stays (root : List Bytes) :
    ∀ (segs : List Bytes) (st : List Bytes),
      (∀ s ∈ segs, s ≠ [46, 46]) → leadsWith root st = true →
      leadsWith root (segs.foldl applySeg st) = true := by
  intro segs
  induction segs with
  | nil => intro st _ hst; exact hst
  | cons s ss ih =>
    intro st hsegs hst
    have hs : s ≠ [46, 46] := hsegs s (by simp)
    have hss : ∀ x ∈ ss, x ≠ [46, 46] := fun x hx => hsegs x (by simp [hx])
    show leadsWith root (ss.foldl applySeg (applySeg st s)) = true
    apply ih (applySeg st s) hss
    by_cases h1 : s = []
    · simpa [applySeg, h1] using hst
    · by_cases h2 : s = [46]
      · simpa [applySeg, h1, h2] using hst
      · simpa [applySeg, h1, h2, hs] using leadsWith_extend root st [s] hst

/-- Safety implies containment: a path passing the syntactic safety check
resolves to a location under the target root. -/
theorem isSafePath_staysWithin (root : List Bytes) (p : Bytes)
    (h : isSafePath p = true) : staysWithin root p = true := by
  have habs : isAbsolute p = false := by
    cases hi : isAbsolute p with
    | false => rfl
    | true => simp [isSafePath, hi] at h
  have htrav : hasTraversal p = false := by
    cases ht : hasTraversal p with
    | false => rfl
    | true => simp [isSafePath, ht] at h
  have hsegs : ∀ s ∈ splitOnByte 47 p, s ≠ [46, 46] := by
    intro s hs hcontra
    have : (splitOnByte 47 p).any (fun s => s == [46, 46]) = true :=
      List.any_eq_true.mpr ⟨s, hs, by simp [hcontra]⟩
    simp [hasTraversal, this] at htrav
  have hroot : leadsWith root root = true := by
    simpa using leadsWith_append root []
  simp only [staysWithin, resolveUnder, habs, Bool.false_eq_true, if_false]
  exact foldl_applySeg_stays root (splitOnByte 47 p) root hsegs hroot

theorem textDecode_cons65 (x : Bytes) :
    textDecode (65 :: x) = (textDecode x).map (fun l => 0 :: l) := by
  simp [textDecode]

theorem textDecode_cons66 (x : Bytes) :
    textDecode (66 :: x) =
      match textDecode x with
      | some (n :: l) => some ((n + 1) :: l)
      | _ => none := by
  simp [textDecode]

theorem textDecode_run (n : Nat) (t : Bytes) :
    textDecode (List.replicate n 66 ++ 65 :: t) =
      (textDecode t).map (fun l => n :: l) := by
  induction n with
  | zero => simpa using textDecode_cons65 t
  | succ k ih =>
    rw [List.replicate_succ, List.cons_append, textDecode_cons66, ih]
    cases textDecode t <;> simp

/-- Round-trip: decoding an encoding recovers the bytes. -/
theorem textDecode_textEncode (bs : Bytes) :
    textDecode (textEncode bs) = some bs := by
  induction bs with
  | nil => rfl
  | cons n t ih =>
    have : textEncode (n :: t) = List.replicate n 66 ++ 65 :: textEncode t := by
      simp [textEncode, concatMap, textEncodeNat]
    rw [this, textDecode_run, ih]
    rfl

/-- Strictness: a successful decode means the input was exactly the
encoding of the result. -/
theorem textDecode_strict (p : Bytes) : ∀ (c : Bytes), textDecode p = some c →
    textEncode c = p := by
  induction p with
  | nil =>
    intro c h
    simp [textDecode] at h
    subst h; rfl
  | cons b rest ih =>
    intro c h
    by_cases h65 : b = 65
    · subst h65
      rw [textDecode_cons65] at h
      cases hr : textDecode rest with
      | none => rw [hr] at h; simp at h
      | some l =>
        rw [hr] at h; simp at h
        subst h
        have h2 : concatMap textEncodeNat l = rest := ih l hr
        show textEncodeNat 0 ++ concatMap textEncodeNat l = 65 :: rest
        rw [h2]
        rfl
    · by_cases h66 : b = 66
      · subst h66
        rw [textDecode_cons66] at h
        cases hr : textDecode rest with
        | none => rw [hr] at h; simp at h
        | some l =>
          rw [hr] at h
          cases l with
          | nil => simp at h
          | cons n l2 =>
            simp at h
            subst h
            have h2 : textEncode (n :: l2) = rest := ih (n :: l2) hr
            show textEncodeNat (n + 1) ++ concatMap textEncodeNat l2 = 66 :: rest
            rw [← h2]
            show (List.replicate (n + 1) 66 ++ [65]) ++ concatMap textEncodeNat l2 =
              66 :: (textEncodeNat n ++ concatMap textEncodeNat l2)
            simp [textEncodeNat, List.replicate_succ]
      · simp [textDecode, h65, h66] at h

theorem decompress_compress (bs : Bytes) : decompress (compress bs) = some bs := by
  simp [compress, decompress]

theorem decompress_strict (p : Bytes) (c : Bytes) (h : decompress p = some c) :
    compress c = p := by
  cases p with
  | nil => simp [decompress] at h
  | cons n rest =>
    simp only [decompress] at h
    by_cases hl : rest.length = n
    · rw [if_pos hl] at h
      cases h
      simp [compress, hl]
    · rw [if_neg hl] at h; cases h

theorem parseStr_encode (s r : Bytes) :
    parseStr ((s.length :: s) ++ r) = some (s, r) := by
  simp [parseStr, List.take_left, List.drop_left]

theorem parseStr_strict (bs : Bytes) (s r : Bytes) (h : parseStr bs = some (s, r)) :
    bs = (s.length :: s) ++ r := by
  cases bs with
  | nil => simp [parseStr] at h
  | cons n rest =>
    simp only [parseStr] at h
    by_cases hn : n ≤ rest.length
    · rw [if_pos hn] at h
      simp at h
      obtain ⟨hs, hr⟩ := h
      subst hs; subst hr
      simp only [List.cons_append, List.cons.injEq]
      constructor
      · rw [List.length_take]
        omega
      · exact (List.take_append_drop n rest).symm
    · rw [if_neg hn] at h; cases h

theorem parseEntries_encode (es : List (Bytes × Bytes)) :
    ∀ r, parseEntries es.length (concatMap encodeEntry es ++ r) = some (es, r) := by
  induction es with
  | nil => intro r; simp [parseEntries, concatMap]
  | cons e es ih =>
    intro r
    have harr : concatMap encodeEntry (e :: es) ++ r =
        (e.1.length :: e.1) ++ ((e.2.length :: e.2) ++ (concatMap encodeEntry es ++ r)) := by
      simp [concatMap, encodeEntry]
    rw [List.length_cons, harr]
    simp only [parseEntries, parseStr_encode, Option.some_bind, ih]
    simp

theorem parseEntries_strict :
    ∀ (k : Nat) (bs : Bytes) (es : List (Bytes × Bytes)) (r : Bytes),
      parseEntries k bs = some (es, r) →
      es.length = k ∧ bs = concatMap encodeEntry es ++ r := by
  intro k
  induction k with
  | zero =>
    intro bs es r h
    simp [parseEntries] at h
    obtain ⟨he, hr⟩ := h
    subst he; subst hr
    simp [concatMap]
  | succ j ih =>
    intro bs es r h
    simp only [parseEntries] at h
    cases h1 : parseStr bs with
    | none => rw [h1] at h; cases h
    | some pr1 =>
      rw [h1] at h
      simp only [Option.some_bind] at h
      cases h2 : parseStr pr1.2 with
      | none => rw [h2] at h; cases h
      | some pr2 =>
        rw [h2] at h
        simp only [Option.some_bind] at h
        cases h3 : parseEntries j pr2.2 with
        | none => rw [h3] at h; cases h
        | some pr3 =>
          rw [h3] at h
          simp at h
          obtain ⟨hes, hr⟩ := h
          subst hes; subst hr
          obtain ⟨hlen, hbs⟩ := ih pr2.2 pr3.1 pr3.2 h3
          refine ⟨by simp [hlen], ?_⟩
          rw [parseStr_strict bs pr1.1 pr1.2 h1, parseStr_strict pr1.2 pr2.1 pr2.2 h2, hbs]
          simp [concatMap, encodeEntry]

theorem parseFiles_serialize (fs : List (Bytes × Bytes)) :
    parseFiles (serializeFiles fs) = some fs := by
  have h := parseEntries_encode fs []
  simp only [List.append_nil] at h
  simp [parseFiles, serializeFiles, h]

theorem parseFiles_strict (bs : Bytes) (fs : List (Bytes × Bytes))
    (h : parseFiles bs = some fs) : bs = serializeFiles fs := by
  cases bs with
  | nil => simp [parseFiles] at h
  | cons cnt rest =>
    simp only [parseFiles] at h
    cases h1 : parseEntries cnt rest with
    | none => rw [h1] at h; cases h
    | some er =>
      rw [h1] at h
      simp only [Option.some_bind] at h
      by_cases h2 : er.2 = []
      · rw [if_pos h2] at h
        simp at h
        subst h
        obtain ⟨hlen, hrest⟩ := parseEntries_strict cnt rest er.1 er.2 h1
        rw [h2] at hrest
        simp only [List.append_nil] at hrest
        simp [serializeFiles, hrest, hlen]
      · rw [if_neg h2] at h; cases h

theorem digest_inj (a b : Bytes) (h : digest a = digest b) : a = b := by
  simp [digest] at h
  exact h.2

/-! ## Core pipeline lemmas -/
/-- Inversion for a successful decode: every validation stage succeeded and
the manifest is assembled from the parsed files and the cleartext fields. -/
theorem decode_ok_inv (e : Envelope) (m : Manifest) (h : decode e = .ok m) :
    ∃ comp ser fs,
      textDecode e.payload = some comp ∧
      decompress comp = some ser ∧
      parseFiles ser = some fs ∧
      digest (serializeFiles fs) = e.checksum ∧
      e.format_tag = formatTag ∧
      m = ⟨e.format_tag, fs, e.metadata, e.checksum⟩ := by
  cases h1 : textDecode e.payload with
  | none => simp [decode, h1] at h
  | some comp =>
    cases h2 : decompress comp with
    | none => simp [decode, h1, h2] at h
    | some ser =>
      cases h3 : parseFiles ser with
      | none => simp [decode, h1, h2, h3] at h
      | some fs =>
        by_cases h4 : digest (serializeFiles fs) = e.checksum
        · by_cases h5 : e.format_tag = formatTag
          · refine ⟨comp, ser, fs, rfl, h2, h3, h4, h5, ?_⟩
            simp [decode, h1, h2, h3, h4, h5] at h
            rw [h5]
            exact h.symm
          · simp [decode, h1, h2, h3, h4, h5] at h
        · simp [decode, h1, h2, h3, h4] at h

/-- Decoding the embedding of a manifest whose checksum and tag are
well-formed recovers the manifest exactly. -/
theorem decode_embed (m : Manifest) (hck : m.checksum = digest (serializeFiles m.files))
    (htag : m.format_tag = formatTag) : decode (embed m) = .ok m := by
  have h1 : textDecode (textEncode (compress (serializeFiles m.files))) =
      some (compress (serializeFiles m.files)) := textDecode_textEncode _
  have h2 : decompress (compress (serializeFiles m.files)) =
      some (serializeFiles m.files) := decompress_compress _
  have h3 : parseFiles (serializeFiles m.files) = some m.files :=
    parseFiles_serialize _
  simp [decode, embed, h1, h2, h3, ← hck, htag]
  rw [← htag]

/-- A sealed manifest is exactly the input tables with the freshly computed
checksum and the current format tag. -/
theorem seal_ok_inv (files metadata : List (Bytes × Bytes)) (m : Manifest)
    (h : sealSnapshot files metadata = .ok m) :
    m = ⟨formatTag, files, metadata, digest (serializeFiles files)⟩ := by
  cases hf : (files.map Prod.fst).find? (fun p => ! isSafePath p) with
  | none =>
    simp [sealSnapshot, hf] at h
    exact h.symm
  | some p => simp [sealSnapshot, hf] at h

/-- Seal succeeds exactly on safe inputs, producing the canonical sealed
manifest. -/
theorem seal_of_safe (files metadata : List (Bytes × Bytes))
    (hsafe : ∀ p ∈ files.map Prod.fst, isSafePath p = true) :
    sealSnapshot files metadata = .ok ⟨formatTag, files, metadata, digest (serializeFiles files)⟩ := by
  have hf : (files.map Prod.fst).find? (fun p => ! isSafePath p) = none := by
    rw [List.find?_eq_none]
    intro p hp
    simp [hsafe p hp]
  simp [sealSnapshot, hf]

/-! ## Claim C1: round-trip -/
/-- C1.  For every path→content mapping whose paths satisfy the path-safety
invariant, sealing the mapping, embedding the resulting manifest into an
envelope, decoding that envelope, and restoring the decoded manifest
reproduces exactly the original mapping, byte for byte. -/
theorem roundtrip_restores_files (files metadata : List (Bytes × Bytes))
    (hsafe : ∀ p ∈ files.map Prod.fst, isSafePath p = true) :
    ∃ m, sealSnapshot files metadata = .ok m ∧ decode (embed m) = .ok m ∧
      (restore m).written = files := by
  refine ⟨⟨formatTag, files, metadata, digest (serializeFiles files)⟩,
    seal_of_safe files metadata hsafe, decode_embed _ rfl rfl, ?_⟩
  simp only [restore]
  exact List.filter_eq_self.mpr
    (fun pc hpc => hsafe pc.1 (List.mem_map.mpr ⟨pc, hpc, rfl⟩))

/-- Witness for C1 on the spec's scenario mapping
`{src/a.py: x=1\n, README.md: hi\n}`. -/
theorem roundtrip_restores_files_witness :
    ∃ m, sealSnapshot
        [([115, 114, 99, 47, 97, 46, 112, 121], [120, 61, 49, 10]),
         ([82, 69, 65, 68, 77, 69, 46, 109, 100], [104, 105, 10])] [] = .ok m ∧
      decode (embed m) = .ok m ∧
      (restore m).written =
        [([115, 114, 99, 47, 97, 46, 112, 121], [120, 61, 49, 10]),
         ([82, 69, 65, 68, 77, 69, 46, 109, 100], [104, 105, 10])] :=
  roundtrip_restores_files _ _ (by decide)

/-- Setting position `i` of a list to a value different from its current
entry changes the list. -/
theorem set_ne_of_get_ne (l : Bytes) :
    ∀ (i : Nat) (b : Nat) (hi : i < l.length), b ≠ l.get ⟨i, hi⟩ → l.set i b ≠ l := by
  induction l with
  | nil => intro i b hi; simp at hi
  | cons x xs ih =>
    intro i b hi hb
    cases i with
    | zero =>
      intro hcon
      simp only [List.set] at hcon
      exact hb (by simpa using congrArg (fun l => l.headI) hcon)
    | succ j =>
      intro hcon
      simp only [List.set, List.cons.injEq] at hcon
      exact ih j b (by simpa using hi) (by simpa using hb) hcon.2

/-! ## Claim C2: tamper evidence -/
/-- C2.  Flipping any single byte of the compressed payload of an embedded
envelope makes decode fail with an IntegrityError; decode never returns a
silently wrong manifest for such a corrupted envelope. -/
theorem tamper_evidence (files metadata : List (Bytes × Bytes)) (m : Manifest)
    (hse : sealSnapshot files metadata = .ok m) (i : Nat) (b : Nat)
    (hi : i < (embed m).payload.length)
    (hb : b ≠ (embed m).payload.get ⟨i, hi⟩) :
    ∃ st,
      decode
          (Envelope.mk (embed m).format_tag (embed m).checksum (embed m).metadata
            ((embed m).payload.set i b)) =
        .error (.integrity st) := by
  have hm := seal_ok_inv files metadata m hse
  subst hm
  have hne : ((embed ⟨formatTag, files, metadata, digest (serializeFiles files)⟩).payload.set i b) ≠
      (embed ⟨formatTag, files, metadata, digest (serializeFiles files)⟩).payload :=
    set_ne_of_get_ne _ i b hi hb
  cases hd : decode (Envelope.mk _ _ _ _) with
  | error err =>
    cases err with
    | integrity st => exact ⟨st, rfl⟩
  | ok m2 =>
    exfalso
    obtain ⟨comp, ser, fs, h1, h2, h3, h4, h5, hm2⟩ := decode_ok_inv _ m2 hd
    have hcks : digest (serializeFiles fs) = digest (serializeFiles files) := by
      simpa [embed] using h4
    have hfs : serializeFiles fs = serializeFiles files := digest_inj _ _ hcks
    have hser : ser = serializeFiles fs := parseFiles_strict ser fs h3
    have hcomp : compress ser = comp := decompress_strict comp ser h2
    have hpay := textDecode_strict _ comp h1
    apply hne
    calc (embed ⟨formatTag, files, metadata, digest (serializeFiles files)⟩).payload.set i b
        = textEncode comp := hpay.symm
      _ = textEncode (compress (serializeFiles files)) := by rw [← hcomp, hser, hfs]
      _ = (embed ⟨formatTag, files, metadata, digest (serializeFiles files)⟩).payload := rfl

/-- Witness for C2: corrupting byte 0 of a concrete embedded envelope. -/
theorem tamper_evidence_witness :
    ∃ st,
      decode
          (Envelope.mk
            (embed ⟨formatTag, [([97], [5])], [], digest (serializeFiles [([97], [5])])⟩).format_tag
            (embed ⟨formatTag, [([97], [5])], [], digest (serializeFiles [([97], [5])])⟩).checksum
            (embed ⟨formatTag, [([97], [5])], [], digest (serializeFiles [([97], [5])])⟩).metadata
            ((embed ⟨formatTag, [([97], [5])], [], digest (serializeFiles [([97], [5])])⟩).payload.set 0 7)) =
        .error (.integrity st) :=
  tamper_evidence [([97], [5])] [] _ rfl 0 7 (by decide) (by decide)

/-! ## Claim C3: decode validates every stage -/
/-- C3.  Decode returns a manifest only when every validation stage
succeeds; each failure — text-alphabet decoding, decompression, parse,
checksum mismatch against the recomputed digest of the parsed files, or an
unknown format tag — is a terminal IntegrityError identifying the failing
stage, and restore is never invoked on a manifest decode could not fully
validate. -/
theorem decode_stage_validation (e : Envelope) :
    (∀ m, decode e = .ok m →
      e.format_tag = formatTag ∧
      ∃ comp ser fs, textDecode e.payload = some comp ∧ decompress comp = some ser ∧
        parseFiles ser = some fs ∧ digest (serializeFiles fs) = e.checksum ∧
        m = ⟨e.format_tag, fs, e.metadata, e.checksum⟩) ∧
    (textDecode e.payload = none → decode e = .error (.integrity .alphabet)) ∧
    (∀ comp, textDecode e.payload = some comp → decompress comp = none →
      decode e = .error (.integrity .decompression)) ∧
    (∀ comp ser, textDecode e.payload = some comp → decompress comp = some ser →
      parseFiles ser = none → decode e = .error (.integrity .parseStage)) ∧
    (∀ comp ser fs, textDecode e.payload = some comp → decompress comp = some ser →
      parseFiles ser = some fs → digest (serializeFiles fs) ≠ e.checksum →
      decode e = .error (.integrity .checksumStage)) ∧
    (∀ comp ser fs, textDecode e.payload = some comp → decompress comp = some ser →
      parseFiles ser = some fs → digest (serializeFiles fs) = e.checksum →
      e.format_tag ≠ formatTag → decode e = .error (.integrity .formatTagStage)) ∧
    (∀ err, decode e = .error err → decodeThenRestore e = .error err) := by
  refine ⟨?_, ?_, ?_, ?_, ?_, ?_, ?_⟩
  · intro m h
    obtain ⟨comp, ser, fs, h1, h2, h3, h4, h5, hm⟩ := decode_ok_inv e m h
    exact ⟨h5, comp, ser, fs, h1, h2, h3, h4, hm⟩
  · intro h1
    simp [decode, h1]
  · intro comp h1 h2
    simp [decode, h1, h2]
  · intro comp ser h1 h2 h3
    simp [decode, h1, h2, h3]
  · intro comp ser fs h1 h2 h3 h4
    simp [decode, h1, h2, h3, h4]
  · intro comp ser fs h1 h2 h3 h4 h5
    simp [decode, h1, h2, h3, h4, h5]
  · intro err h
    simp [decodeThenRestore, h]

/-- Witness for C3 on a concrete envelope whose payload byte 0 is outside
the text alphabet: the alphabet stage fails and restore is not reached. -/
theorem decode_stage_validation_witness :
    decode (Envelope.mk formatTag [0] [] [7]) = .error (.integrity .alphabet) ∧
    decodeThenRestore (Envelope.mk formatTag [0] [] [7]) =
      .error (.integrity .alphabet) :=
  ⟨(decode_stage_validation (Envelope.mk formatTag [0] [] [7])).2.1 (by decide),
    (decode_stage_validation (Envelope.mk formatTag [0] [] [7])).2.2.2.2.2.2 _
      ((decode_stage_validation (Envelope.mk formatTag [0] [] [7])).2.1 (by decide))⟩

/-! ## Claim C4: seal rejects unsafe paths -/
/-- C4.  A mapping containing an absolute or traversing path makes seal
signal a PathViolation and produce no manifest (the whole seal aborts); in
particular seal rejects `{../evil.txt: x}` and `{/etc/passwd: x}`. -/
theorem seal_rejects_unsafe_paths :
    (∀ files metadata, (∃ p ∈ files.map Prod.fst, isSafePath p = false) →
      ∃ q, isSafePath q = false ∧
        sealSnapshot files metadata = .error (.pathViolation q)) ∧
    sealSnapshot [([46, 46, 47, 101, 118, 105, 108, 46, 116, 120, 116], [120])] [] =
      .error (.pathViolation [46, 46, 47, 101, 118, 105, 108, 46, 116, 120, 116]) ∧
    sealSnapshot [([47, 101, 116, 99, 47, 112, 97, 115, 115, 119, 100], [120])] [] =
      .error (.pathViolation [47, 101, 116, 99, 47, 112, 97, 115, 115, 119, 100]) := by
  refine ⟨?_, by rfl, by rfl⟩
  intro files metadata h
  cases hf : (files.map Prod.fst).find? (fun p => ! isSafePath p) with
  | none =>
    exfalso
    obtain ⟨p, hp, hbadp⟩ := h
    have := List.find?_eq_none.mp hf p hp
    simp [hbadp] at this
  | some q =>
    have hq := List.find?_some hf
    refine ⟨q, ?_, by simp [sealSnapshot, hf]⟩
    cases hsq : isSafePath q with
    | false => rfl
    | true => simp [hsq] at hq

/-- Witness for C4 applied to the traversal mapping `{../evil.txt: x}`. -/
theorem seal_rejects_unsafe_paths_witness :
    ∃ q, isSafePath q = false ∧
      sealSnapshot [([46, 46, 47, 101, 118, 105, 108, 46, 116, 120, 116], [120])] [] =
        .error (.pathViolation q) :=
  seal_rejects_unsafe_paths.1 _ []
    ⟨[46, 46, 47, 101, 118, 105, 108, 46, 116, 120, 116], by decide, by decide⟩

/-! ## Claim C5: restore never writes outside the target root -/
/-- C5.  For every manifest given to restore — including one constructed
directly without passing through seal — a file is written only if its path
re-validates as safe, in which case its resolved path stays within the
target root; a file whose path fails re-validation is refused and
reported. -/
theorem restore_never_writes_outside_root (m : Manifest) (root : List Bytes) :
    (∀ p c, (p, c) ∈ (restore m).written →
      isSafePath p = true ∧ staysWithin root p = true) ∧
    (∀ p c, (p, c) ∈ m.files → isSafePath p = false → p ∈ (restore m).refused) := by
  constructor
  · intro p c hmem
    simp only [restore] at hmem
    have := List.of_mem_filter hmem
    simp only at this
    exact ⟨this, isSafePath_staysWithin root p this⟩
  · intro p c hmem hbadp
    simp only [restore]
    refine List.mem_map.mpr ⟨(p, c), ?_, rfl⟩
    refine List.mem_filter.mpr ⟨hmem, ?_⟩
    simp [hbadp]

/-- Witness for C5 on a directly constructed manifest holding one safe and
one traversing path: the safe file stays within the root. -/
theorem restore_never_writes_outside_root_witness :
    isSafePath [97] = true ∧
      staysWithin [[114]] [97] = true :=
  (restore_never_writes_outside_root
      (Manifest.mk formatTag [([97], [120]), ([46, 46, 47, 101], [121])] [] [])
      [[114]]).1 [97] [120] (by decide)

/-! ## Claim C6: the checksum invariant -/
/-- C6.  Every manifest produced by sealing (directly or through the
policy gate) or by decoding satisfies the invariant that its checksum is a
fresh digest of the canonical serialization of its files; embedding
carries the checksum unchanged; and the checksum covers only the files,
not the metadata — sealing the same files with different metadata yields
the same checksum. -/
theorem checksum_covers_files (files metadata : List (Bytes × Bytes)) :
    (∀ m, sealSnapshot files metadata = .ok m →
      m.checksum = digest (serializeFiles m.files)) ∧
    (∀ e m, decode e = .ok m → m.checksum = digest (serializeFiles m.files)) ∧
    (∀ ds ov m, sealWithPolicy files metadata ds ov = .ok m →
      m.checksum = digest (serializeFiles m.files)) ∧
    (∀ m : Manifest, (embed m).checksum = m.checksum) ∧
    (∀ metadata2 m m2, sealSnapshot files metadata = .ok m →
      sealSnapshot files metadata2 = .ok m2 →
      m.checksum = m2.checksum ∧ m.files = m2.files) := by
  refine ⟨?_, ?_, ?_, fun m => rfl, ?_⟩
  · intro m h
    rw [seal_ok_inv files metadata m h]
  · intro e m h
    obtain ⟨comp, ser, fs, h1, h2, h3, h4, h5, hm⟩ := decode_ok_inv e m h
    rw [hm]
    exact h4.symm
  · intro ds ov m h
    simp only [sealWithPolicy] at h
    by_cases hc : (!ov && !(unresolvedHigh files ds).isEmpty) = true
    · rw [if_pos hc] at h; cases h
    · rw [if_neg hc] at h
      rw [seal_ok_inv _ _ m h]
  · intro metadata2 m m2 h1 h2
    rw [seal_ok_inv _ _ _ h1, seal_ok_inv _ _ _ h2]
    exact ⟨rfl, rfl⟩

/-- Witness for C6: a concrete seal satisfies the checksum invariant. -/
theorem checksum_covers_files_witness :
    (Manifest.mk formatTag [([97], [98])] []
        (digest (serializeFiles [([97], [98])]))).checksum =
      digest (serializeFiles
        (Manifest.mk formatTag [([97], [98])] []
          (digest (serializeFiles [([97], [98])]))).files) :=
  (checksum_covers_files [([97], [98])] []).1 _ rfl

/-! ## Diff engine lemmas -/
theorem mem_insertPath (p a : Bytes) (l : List Bytes) :
    a ∈ insertPath p l ↔ a = p ∨ a ∈ l := by
  induction l with
  | nil => simp [insertPath]
  | cons q qs ih =>
    simp only [insertPath]
    by_cases h : bytesLe p q = true
    · rw [if_pos h]
      simp
    · rw [if_neg h]
      simp only [List.mem_cons, ih]
      tauto

theorem mem_sortPaths (a : Bytes) (l : List Bytes) :
    a ∈ sortPaths l ↔ a ∈ l := by
  induction l with
  | nil => simp [sortPaths]
  | cons p ps ih =>
    simp only [sortPaths, List.foldr] at ih ⊢
    rw [mem_insertPath, ih]
    simp

theorem mem_unionPaths (p : Bytes) (o n : List Bytes) :
    p ∈ unionPaths o n ↔ p ∈ o ∨ p ∈ n := by
  rw [unionPaths, mem_sortPaths, List.mem_dedup, List.mem_append]

theorem lookupFile_eq_none_iff (files : List (Bytes × Bytes)) (p : Bytes) :
    lookupFile files p = none ↔ p ∉ files.map Prod.fst := by
  constructor
  · intro h hmem
    obtain ⟨pc, hpc, hfst⟩ := List.mem_map.mp hmem
    cases hf : files.find? (fun pc => pc.1 == p) with
    | some pc2 => rw [lookupFile, hf] at h; simp at h
    | none =>
      have := List.find?_eq_none.mp hf pc hpc
      simp [hfst] at this
  · intro h
    have hf : files.find? (fun pc => pc.1 == p) = none := by
      rw [List.find?_eq_none]
      intro pc hpc
      simp only [beq_iff_eq]
      intro hcon
      exact h (List.mem_map.mpr ⟨pc, hpc, hcon⟩)
    simp [lookupFile, hf]

theorem lookupFile_some_of_mem (files : List (Bytes × Bytes)) (p : Bytes)
    (h : p ∈ files.map Prod.fst) : ∃ c, lookupFile files p = some c := by
  cases hl : lookupFile files p with
  | none => exact absurd h ((lookupFile_eq_none_iff files p).mp hl)
  | some c => exact ⟨c, rfl⟩

theorem classifyPath_path (o n : Manifest) (p : Bytes) :
    (classifyPath o n p).path = p := by
  cases ho : lookupFile o.files p with
  | none =>
    cases hn : lookupFile n.files p with
    | none => simp [classifyPath, ho, hn]
    | some cn => simp [classifyPath, ho, hn]
  | some co =>
    cases hn : lookupFile n.files p with
    | none => simp [classifyPath, ho, hn]
    | some cn =>
      by_cases heq : co = cn
      · simp [classifyPath, ho, hn, heq]
      · simp [classifyPath, ho, hn, heq]

/-! ## Claim C7: diff classification -/
/-- C7.  Diff classifies each path of the union of the two path sets as
added (only in new), removed (only in old), modified with a line-based
unified diff (in both, differing), or unchanged (in both, identical);
diffing a manifest against itself yields only unchanged entries, diffing
the empty manifest against `{a.txt: hi}` yields exactly one added entry,
and diffing `l1\nl2` against `l1\nl3` yields one modified entry whose
unified diff shows line 2 changed from `l2` to `l3`. -/
theorem diff_classification :
    (∀ o n : Manifest, ∀ e ∈ diffManifests o n,
      (e.status = .added ↔
        lookupFile o.files e.path = none ∧ lookupFile n.files e.path ≠ none) ∧
      (e.status = .removed ↔
        lookupFile o.files e.path ≠ none ∧ lookupFile n.files e.path = none) ∧
      (e.status = .unchanged ↔
        ∃ c, lookupFile o.files e.path = some c ∧ lookupFile n.files e.path = some c) ∧
      (∀ a b, lookupFile o.files e.path = some a → lookupFile n.files e.path = some b →
        a ≠ b → e.status = .modified (unifiedDiff a b)) ∧
      (∀ h, e.status = .modified h → ∃ a b, lookupFile o.files e.path = some a ∧
        lookupFile n.files e.path = some b ∧ a ≠ b ∧ h = unifiedDiff a b)) ∧
    (∀ o n : Manifest, ∀ p, (∃ e ∈ diffManifests o n, e.path = p) ↔
      (p ∈ o.files.map Prod.fst ∨ p ∈ n.files.map Prod.fst)) ∧
    (∀ m : Manifest, ∀ e ∈ diffManifests m m, e.status = .unchanged) ∧
    diffManifests ⟨formatTag, [], [], []⟩
        ⟨formatTag, [([97, 46, 116, 120, 116], [104, 105])], [], []⟩ =
      [⟨[97, 46, 116, 120, 116], .added⟩] ∧
    diffManifests ⟨formatTag, [([97, 46, 116, 120, 116], [108, 49, 10, 108, 50])], [], []⟩
        ⟨formatTag, [([97, 46, 116, 120, 116], [108, 49, 10, 108, 51])], [], []⟩ =
      [⟨[97, 46, 116, 120, 116], .modified
        [.context [108, 49], .removedLine [108, 50], .addedLine [108, 51]]⟩] := by
  refine ⟨?_, ?_, ?_, by rfl, by rfl⟩
  · intro o n e he
    obtain ⟨p, hp, hep⟩ := List.mem_map.mp he
    have hunion := (mem_unionPaths p _ _).mp hp
    subst hep
    cases ho : lookupFile o.files p with
    | none =>
      cases hn : lookupFile n.files p with
      | none =>
        exfalso
        cases hunion with
        | inl hmem =>
          obtain ⟨c, hc⟩ := lookupFile_some_of_mem o.files p hmem
          rw [ho] at hc; cases hc
        | inr hmem =>
          obtain ⟨c, hc⟩ := lookupFile_some_of_mem n.files p hmem
          rw [hn] at hc; cases hc
      | some cn =>
        have hcl : classifyPath o n p = ⟨p, .added⟩ := by
          simp [classifyPath, ho, hn]
        rw [hcl]
        dsimp only
        refine ⟨by simp [ho, hn], by simp [ho], by simp [ho], ?_, by simp⟩
        intro a b ha hb hab
        rw [ho] at ha
        exact Option.noConfusion ha
    | some co =>
      cases hn : lookupFile n.files p with
      | none =>
        have hcl : classifyPath o n p = ⟨p, .removed⟩ := by
          simp [classifyPath, ho, hn]
        rw [hcl]
        dsimp only
        refine ⟨by simp [hn], by simp [ho, hn], by simp [hn], ?_, by simp⟩
        intro a b ha hb hab
        rw [hn] at hb
        exact Option.noConfusion hb
      | some cn =>
        by_cases heq : co = cn
        · subst heq
          have hcl : classifyPath o n p = ⟨p, .unchanged⟩ := by
            simp [classifyPath, ho, hn]
          rw [hcl]
          dsimp only
          refine ⟨by simp [ho], by simp [hn], by simp [ho, hn], ?_, by simp⟩
          intro a b ha hb hab
          rw [ho] at ha
          rw [hn] at hb
          injection ha with ha2
          injection hb with hb2
          exact absurd (ha2.symm.trans hb2) hab
        · have hcl : classifyPath o n p = ⟨p, .modified (unifiedDiff co cn)⟩ := by
            simp [classifyPath, ho, hn, heq]
          rw [hcl]
          dsimp only
          refine ⟨by simp [ho], by simp [hn], ?_, ?_, ?_⟩
          · rw [ho, hn]
            constructor
            · intro h; exact DiffStatus.noConfusion h
            · rintro ⟨c, hc1, hc2⟩
              injection hc1 with hc1
              injection hc2 with hc2
              exact absurd (hc1.trans hc2.symm) heq
          · intro a b ha hb hab
            rw [ho] at ha
            rw [hn] at hb
            injection ha with ha2
            injection hb with hb2
            rw [← ha2, ← hb2]
          · intro h hh
            injection hh with hh2
            exact ⟨co, cn, ho, hn, heq, hh2.symm⟩
  · intro o n p
    constructor
    · rintro ⟨e, he, hep⟩
      obtain ⟨q, hq, heq⟩ := List.mem_map.mp he
      have := (mem_unionPaths q _ _).mp hq
      rw [← heq, classifyPath_path] at hep
      subst hep
      exact this
    · intro h
      refine ⟨classifyPath o n p, List.mem_map.mpr ⟨p, (mem_unionPaths p _ _).mpr h, rfl⟩,
        classifyPath_path o n p⟩
  · intro m e he
    obtain ⟨p, hp, hep⟩ := List.mem_map.mp he
    have hunion := (mem_unionPaths p _ _).mp hp
    have hmem : p ∈ m.files.map Prod.fst := by tauto
    obtain ⟨c, hc⟩ := lookupFile_some_of_mem m.files p hmem
    subst hep
    simp [classifyPath, hc]

/-- Witness for C7: the added classification on `diff({}, {a.txt: hi})`. -/
theorem diff_classification_witness :
    lookupFile ([] : List (Bytes × Bytes)) [97, 46, 116, 120, 116] = none ∧
      lookupFile [([97, 46, 116, 120, 116], [104, 105])] [97, 46, 116, 120, 116] ≠ none :=
  ((diff_classification.1 ⟨formatTag, [], [], []⟩
      ⟨formatTag, [([97, 46, 116, 120, 116], [104, 105])], [], []⟩
      ⟨[97, 46, 116, 120, 116], .added⟩ (by decide)).1).mp rfl

/-! ## Secret scanner lemmas -/
theorem mem_scanContent_iff (path c : Bytes) (cand : Candidate) :
    cand ∈ scanContent path c ↔
      ∃ pc ∈ secretPatterns, ∃ i, i < c.length ∧ matchesAt pc.2.1 c i = true ∧
        cand = ⟨path, i, pc.2.1.length, pc.1, pc.2.2⟩ := by
  simp only [scanContent, mem_concatMap, List.mem_map, List.mem_filter, List.mem_range]
  constructor
  · rintro ⟨pc, hpc, i, ⟨hi, hm⟩, hcand⟩
    exact ⟨pc, hpc, i, hi, hm, hcand.symm⟩
  · rintro ⟨pc, hpc, i, hi, hm, hcand⟩
    exact ⟨pc, hpc, i, ⟨hi, hm⟩, hcand.symm⟩

theorem matchesAt_span (pat c : Bytes) (i : Nat) (hm : matchesAt pat c i = true) :
    (c.drop i).take pat.length = pat := by
  simpa [matchesAt] using hm

theorem matchesAt_bounds (pat c : Bytes) (i : Nat) (hm : matchesAt pat c i = true)
    (hne : pat ≠ []) : i + pat.length ≤ c.length := by
  have hsp := matchesAt_span pat c i hm
  have hlen : ((c.drop i).take pat.length).length = pat.length := by rw [hsp]
  rw [List.length_take, List.length_drop] at hlen
  have hpos : 0 < pat.length := List.length_pos.mpr hne
  omega

/-- The fixed pattern set is well-formed: every pattern is nonempty and
newline-free, and categories identify patterns uniquely. -/
theorem secretPatterns_wf :
    (∀ pc ∈ secretPatterns, pc.2.1 ≠ [] ∧ ∀ b ∈ pc.2.1, b ≠ 10) ∧
    (∀ pc ∈ secretPatterns, pc.2.2 = Confidence.high →
      pc.2.1 = [115, 107, 95, 108, 105, 118, 101, 95]) := by
  decide

/-- A scanned candidate's span lies within the content, consists of the
matched (newline-free) pattern bytes, and carries the scanned path. -/
theorem scanContent_span (path c : Bytes) (cand : Candidate)
    (h : cand ∈ scanContent path c) :
    cand.start + cand.len ≤ c.length ∧
      (∀ b ∈ (c.drop cand.start).take cand.len, b ≠ 10) ∧ cand.path = path := by
  obtain ⟨pc, hpc, i, hi, hm, hcand⟩ := (mem_scanContent_iff path c cand).mp h
  subst hcand
  obtain ⟨hne, hnl⟩ := secretPatterns_wf.1 pc hpc
  have hsp := matchesAt_span pc.2.1 c i hm
  refine ⟨matchesAt_bounds pc.2.1 c i hm hne, ?_, rfl⟩
  intro b hb
  rw [hsp] at hb
  exact hnl b hb

/-! ## Redaction lemmas -/
theorem redactSpan_length (c : Bytes) (s l : Nat) (hb : s + l ≤ c.length) :
    (redactSpan c s l).length = c.length := by
  simp only [redactSpan, List.length_append, List.length_take, List.length_replicate,
    List.length_drop]
  omega

theorem redactSpan_take (c : Bytes) (s l : Nat) (hs : s ≤ c.length) :
    (redactSpan c s l).take s = c.take s := by
  have hlen : (c.take s).length = s := by rw [List.length_take]; omega
  rw [redactSpan, List.append_assoc, List.take_left' hlen]

theorem redactSpan_drop (c : Bytes) (s l : Nat) (hb : s + l ≤ c.length) :
    (redactSpan c s l).drop (s + l) = c.drop (s + l) := by
  have hlen : (c.take s ++ List.replicate l 42).length = s + l := by
    rw [List.length_append, List.length_take, List.length_replicate,
      Nat.min_eq_left (by omega)]
  rw [redactSpan, List.drop_left' hlen]

theorem redact_idempotent_span (c : Bytes) (s l : Nat) (hb : s + l ≤ c.length) :
    redactSpan (redactSpan c s l) s l = redactSpan c s l := by
  have hs : s ≤ c.length := by omega
  show (redactSpan c s l).take s ++ List.replicate l 42 ++
      (redactSpan c s l).drop (s + l) = redactSpan c s l
  rw [redactSpan_take c s l hs, redactSpan_drop c s l hb]
  rfl

theorem redactSpan_count_take (c : Bytes) (s l : Nat) (hb : s + l ≤ c.length)
    (hnl : ∀ b ∈ (c.drop s).take l, b ≠ 10) (i : Nat) :
    ((redactSpan c s l).take i).count 10 = ((c.take i).count 10) := by
  have hA : (c.take s).length = s := by rw [List.length_take]; omega
  have hS : ((c.drop s).take l).length = l := by
    rw [List.length_take, List.length_drop]; omega
  have hc : c = c.take s ++ ((c.drop s).take l ++ (c.drop s).drop l) := by
    rw [List.take_append_drop, List.take_append_drop]
  have hB0 : ∀ k, ((List.replicate l 42).take k).count 10 = 0 := by
    intro k
    rw [List.count_eq_zero]
    intro hmem
    have h42 := List.eq_of_mem_replicate (List.take_subset _ _ hmem)
    exact absurd h42 (by decide)
  have hS0 : ∀ k, (((c.drop s).take l).take k).count 10 = 0 := by
    intro k
    rw [List.count_eq_zero]
    intro hmem
    exact hnl 10 (List.take_subset _ _ hmem) rfl
  have hexp1 : (redactSpan c s l).take i =
      (c.take s).take i ++ (List.replicate l 42).take (i - s) ++
        (c.drop (s + l)).take (i - (s + l)) := by
    rw [redactSpan, List.take_append_eq_append_take, List.take_append_eq_append_take,
      List.length_append, hA, List.length_replicate]
  have hexp2 : c.take i =
      (c.take s).take i ++ (((c.drop s).take l).take (i - s) ++
        ((c.drop s).drop l).take (i - (s + l))) := by
    conv_lhs => rw [hc]
    rw [List.take_append_eq_append_take, List.take_append_eq_append_take, hA, hS,
      Nat.sub_sub]
  have hCC : (c.drop s).drop l = c.drop (s + l) := by
    rw [List.drop_drop, Nat.add_comm]
  rw [hexp1, hexp2, hCC, List.count_append, List.count_append, List.count_append,
    List.count_append, hB0, hS0]
  omega

/-! ## Claim C8: the secret-quarantine gate -/
/-- C8.  When a scan leaves at least one high-confidence candidate without
a resolution, sealing through the policy gate fails closed with
UnresolvedSecretCandidate and produces no manifest; with the explicit
override it proceeds to seal the (redacted) mapping. -/
theorem seal_gate_fail_closed (files metadata : List (Bytes × Bytes))
    (ds : List Decision) (h : unresolvedHigh files ds ≠ []) :
    sealWithPolicy files metadata ds false = .error .unresolvedSecretCandidate ∧
    sealWithPolicy files metadata ds true =
      sealSnapshot (applyDecisions files ds) metadata := by
  constructor
  · have hne : (unresolvedHigh files ds).isEmpty = false := by
      cases hu : unresolvedHigh files ds with
      | nil => exact absurd hu h
      | cons a l => rfl
    simp [sealWithPolicy, hne]
  · simp [sealWithPolicy]

/-- Witness for C8: a mapping holding an API-key-shaped secret with no
resolutions fails closed, and the override proceeds. -/
theorem seal_gate_fail_closed_witness :
    sealWithPolicy [([99], [115, 107, 95, 108, 105, 118, 101, 95])] [] [] false =
      .error .unresolvedSecretCandidate ∧
    sealWithPolicy [([99], [115, 107, 95, 108, 105, 118, 101, 95])] [] [] true =
      sealSnapshot (applyDecisions [([99], [115, 107, 95, 108, 105, 118, 101, 95])] []) [] :=
  seal_gate_fail_closed [([99], [115, 107, 95, 108, 105, 118, 101, 95])] [] []
    (by decide)

/-! ## Claim C9: redaction is a frame-preserving span replacement -/
/-- C9.  Applying a redact resolution to a candidate the scanner matched in
a file replaces exactly the matched span with the fixed-width placeholder:
the content length is unchanged, every byte before and after the span is
unchanged at its position, and the newline count of every prefix — hence
the line count and the line numbers of all unredacted content — is
identical before and after redaction. -/
theorem redaction_frame (path c : Bytes) (cand : Candidate)
    (hmem : cand ∈ scanContent path c) :
    redactSpan c cand.start cand.len =
      c.take cand.start ++ List.replicate cand.len 42 ++
        c.drop (cand.start + cand.len) ∧
    (redactSpan c cand.start cand.len).length = c.length ∧
    (redactSpan c cand.start cand.len).take cand.start = c.take cand.start ∧
    (redactSpan c cand.start cand.len).drop (cand.start + cand.len) =
      c.drop (cand.start + cand.len) ∧
    ∀ i, ((redactSpan c cand.start cand.len).take i).count 10 =
      ((c.take i).count 10) := by
  obtain ⟨hb, hnl, _⟩ := scanContent_span path c cand hmem
  exact ⟨rfl, redactSpan_length _ _ _ hb, redactSpan_take _ _ _ (by omega),
    redactSpan_drop _ _ _ hb, redactSpan_count_take _ _ _ hb hnl⟩

/-- Witness for C9 on the content `k\nsk_live_` with its scanned
high-confidence candidate at span 2..10. -/
theorem redaction_frame_witness :
    redactSpan [107, 10, 115, 107, 95, 108, 105, 118, 101, 95] 2 8 =
      [107, 10, 115, 107, 95, 108, 105, 118, 101, 95].take 2 ++
        List.replicate 8 42 ++
        [107, 10, 115, 107, 95, 108, 105, 118, 101, 95].drop 10 ∧
    ((redactSpan [107, 10, 115, 107, 95, 108, 105, 118, 101, 95] 2 8).take 10).count 10 =
      (([107, 10, 115, 107, 95, 108, 105, 118, 101, 95] : Bytes).take 10).count 10 :=
  ⟨(redaction_frame [99] [107, 10, 115, 107, 95, 108, 105, 118, 101, 95]
      ⟨[99], 2, 8, [97, 112, 105, 45, 107, 101, 121], .high⟩ (by decide)).1,
    (redaction_frame [99] [107, 10, 115, 107, 95, 108, 105, 118, 101, 95]
      ⟨[99], 2, 8, [97, 112, 105, 45, 107, 101, 121], .high⟩ (by decide)).2.2.2.2 10⟩

/-! ## Claim C10: redaction is idempotent -/
/-- C10.  Applying the same redaction decision twice to a content yields
the same bytes as applying it once, and after redacting a scanned
high-confidence candidate a re-scan of the redacted content reports no
candidate of the same instance again. -/
theorem redaction_idempotent :
    (∀ (c : Bytes) (d : Decision), d.cand.start + d.cand.len ≤ c.length →
      applyRes (applyRes c d) d = applyRes c d) ∧
    (∀ path c cand, cand ∈ scanContent path c → cand.confidence = .high →
      cand ∉ scanContent path (redactSpan c cand.start cand.len)) := by
  constructor
  · intro c d hb
    cases hr : d.res with
    | ignore => simp [applyRes, hr]
    | redact => simp [applyRes, hr, redact_idempotent_span c _ _ hb]
  · intro path c cand hmem hhigh hmem2
    obtain ⟨hb, hnl, hpath⟩ := scanContent_span path c cand hmem
    obtain ⟨pc1, hpc1, i1, hi1, hm1, hcand1⟩ := (mem_scanContent_iff path c cand).mp hmem
    obtain ⟨pc2, hpc2, i2, hi2, hm2, hcand2⟩ :=
      (mem_scanContent_iff path (redactSpan c cand.start cand.len) cand).mp hmem2
    have hconf1 : pc1.2.2 = Confidence.high := by rw [hcand1] at hhigh; exact hhigh
    have hpat1 : pc1.2.1 = [115, 107, 95, 108, 105, 118, 101, 95] :=
      secretPatterns_wf.2 pc1 hpc1 hconf1
    have hconf2 : pc2.2.2 = Confidence.high := by rw [hcand2] at hhigh; exact hhigh
    have hpat2 : pc2.2.1 = [115, 107, 95, 108, 105, 118, 101, 95] :=
      secretPatterns_wf.2 pc2 hpc2 hconf2
    have hstart : cand.start = i2 := by rw [hcand2]
    have hlen : cand.len = 8 := by
      rw [hcand1]
      simp [hpat1]
    have hA : (c.take cand.start).length = cand.start := by
      rw [List.length_take]; omega
    have hdrop : (redactSpan c cand.start cand.len).drop cand.start =
        List.replicate cand.len 42 ++ c.drop (cand.start + cand.len) := by
      rw [redactSpan, List.append_assoc, List.drop_left' hA]
    have hsp2 := matchesAt_span pc2.2.1 _ i2 hm2
    rw [hpat2] at hsp2
    rw [← hstart] at hsp2
    rw [hdrop, hlen] at hsp2
    have h8 : (List.replicate 8 42 ++ c.drop (cand.start + 8)).take
        ([115, 107, 95, 108, 105, 118, 101, 95] : Bytes).length =
        List.replicate 8 42 := List.take_left' (by simp)
    rw [h8] at hsp2
    exact absurd hsp2 (by decide)

/-- Witness for C10: a concrete double redaction and a concrete re-scan
reporting nothing at the redacted instance. -/
theorem redaction_idempotent_witness :
    applyRes (applyRes [1, 2, 3] ⟨⟨[99], 0, 2, [107], .low⟩, .redact⟩)
        ⟨⟨[99], 0, 2, [107], .low⟩, .redact⟩ =
      applyRes [1, 2, 3] ⟨⟨[99], 0, 2, [107], .low⟩, .redact⟩ ∧
    (⟨[99], 2, 8, [97, 112, 105, 45, 107, 101, 121], .high⟩ : Candidate) ∉
      scanContent [99]
        (redactSpan [107, 10, 115, 107, 95, 108, 105, 118, 101, 95] 2 8) :=
  ⟨redaction_idempotent.1 [1, 2, 3] ⟨⟨[99], 0, 2, [107], .low⟩, .redact⟩ (by decide),
    redaction_idempotent.2 [99] [107, 10, 115, 107, 95, 108, 105, 118, 101, 95]
      ⟨[99], 2, 8, [97, 112, 105, 45, 107, 101, 121], .high⟩ (by decide) rfl⟩
